import Mathlib

/-!
Verification of the express-plus core: the schema-registry composition engine
(`combineRegistries` and the inline merge inside the overridden
`generateOpenAPIDocument`), the mount ledger (`registerMount` and the wrapped
`use` method), and the polymorphic endpoint-registration dispatcher
(`enhanceHttpMethods`).

Paths and other JavaScript strings are embedded as `List Char`; machine
objects become Lean structures; the global `mountRegistry` array becomes an
explicitly threaded list.
-/

/-- Strings are modelled as lists of characters. -/
abbrev Str := List Char

/-- Convert a Lean string literal to the `List Char` model. -/
def strL (s : String) : Str := s.data

/-- Does the string start with a slash (JavaScript `s.startsWith('/')`)? -/
def startsSlash : Str → Bool
  | [] => false
  | c :: _ => c == '/'

/-- Does the string end with a slash (JavaScript `s.endsWith('/')`)? -/
def endsSlash (l : Str) : Bool := startsSlash l.reverse

/-- Does the string contain two consecutive slashes ("//")? -/
def hasDS : Str → Bool
  | [] => false
  | c :: t => (c == '/' && startsSlash t) || hasDS t

/-- Does the string end with two consecutive slashes? -/
def endsDS (l : Str) : Bool := endsSlash l && endsSlash l.dropLast

/-- The string "/" used for root mounts. -/
def rootPath : Str := strL ("/")

/-- Normalization performed by `registerMount` (src/src/utils.ts lines 84-91):
prefix with '/' when missing, then strip a single trailing '/' when the
length exceeds one. -/
def normalizeMountPath (mountPath : Str) : Str :=
  let p1 := if startsSlash mountPath then mountPath else '/' :: mountPath
  if endsSlash p1 && decide (1 < p1.length) then p1.dropLast else p1

/-- Strip one leading '/' as in the composition engine
(`if (routePath.startsWith('/')) routePath = routePath.substring(1)`). -/
def stripLeadingSlash (p : Str) : Str :=
  if startsSlash p then p.drop 1 else p

/-- The tag string "path" used in `def.type === 'path'` comparisons. -/
def pathT : Str := strL ("path")

/-- The `schema` payload of a definition.  For a path definition the source
reads `schema.path` and `schema.method`; every other field of the JSON
object is abstracted by `meta`, with structural (JSON) equality becoming
equality of the whole structure. -/
structure Schema where
  path : Str
  method : Str
  meta : Nat
  deriving DecidableEq, Repr

/-- One definition in a registry: a `type` tag, an optional `name`, and a
`schema` payload, mirroring the fields `def.type`, `def.name`, `def.schema`
that the composition engine reads. -/
structure Defn where
  type : Str
  name : Option Str
  schema : Schema
  deriving DecidableEq, Repr

/-- Truthiness of `def.name` in JavaScript: present and a non-empty string. -/
def truthyName : Option Str → Bool
  | some (_ :: _) => true
  | _ => false

/-- The duplicate test used for root-path merging and for non-path
definitions (src/src/utils.ts lines 127-130 and 168-171):
`baseDef.type === def.type && (def.name ? baseDef.name === def.name :
JSON.stringify(baseDef.schema) === JSON.stringify(def.schema))`. -/
def sameDefMatch (d b : Defn) : Bool :=
  decide (b.type = d.type) &&
    (if truthyName d.name then decide (b.name = d.name)
     else decide (b.schema = d.schema))

/-- `baseDefinitions.some(baseDef => sameDefMatch ...)`. -/
def hasSameDef (baseDefs : List Defn) (d : Defn) : Bool :=
  baseDefs.any (sameDefMatch d)

/-- The duplicate test used for rewritten path definitions
(src/src/utils.ts lines 160-163): same `type === 'path'`, same
`schema.path`, same `schema.method`. -/
def pathDupMatch (a b : Defn) : Bool :=
  decide (b.type = pathT) && decide (b.schema.path = a.schema.path) &&
    decide (b.schema.method = a.schema.method)

/-- `baseDefinitions.some(baseDef => pathDupMatch ...)`. -/
def hasPathDup (baseDefs : List Defn) (a : Defn) : Bool :=
  baseDefs.any (pathDupMatch a)

/-- Deep-copy a path definition and rewrite its path under the mount path
(src/src/utils.ts lines 141-157): strip one leading '/', then
`path === '/' ? '/' + routePath : path + '/' + routePath`. -/
def adjustPathDef (mountPath : Str) (d : Defn) : Defn :=
  let routePath := stripLeadingSlash d.schema.path
  let normalizedPath :=
    if mountPath = rootPath then '/' :: routePath
    else mountPath ++ '/' :: routePath
  { d with schema := { d.schema with path := normalizedPath } }

/-- Root-path special case of `combineRegistries` (lines 124-135): insert the
definition unchanged when no existing definition matches. -/
def insertRootDef (baseDefs : List Defn) (d : Defn) : List Defn :=
  if hasSameDef baseDefs d then baseDefs else baseDefs ++ [d]

/-- General case of `combineRegistries` (lines 138-175): path definitions are
copied, rewritten and inserted when no `(method, path)` duplicate exists;
other definitions are inserted under the name/schema duplicate test. -/
def insertGeneralDef (mountPath : Str) (baseDefs : List Defn) (d : Defn) :
    List Defn :=
  if d.type = pathT then
    let adjusted := adjustPathDef mountPath d
    if hasPathDup baseDefs adjusted then baseDefs else baseDefs ++ [adjusted]
  else
    if hasSameDef baseDefs d then baseDefs else baseDefs ++ [d]

/-- A mounted registry as the composition engine sees it: possibly missing,
with a possibly missing `definitions` collection. -/
structure RegistryShape where
  definitions : Option (List Defn)
  deriving DecidableEq, Repr

/-- One entry of the global mount registry: a normalized mount path plus the
registry reference stored by `registerMount`. -/
structure MountEntry where
  path : Str
  registry : Option RegistryShape
  deriving DecidableEq, Repr

/-- `registerMount` (src/src/utils.ts lines 83-98): normalize the path and
append to the global mount registry, threaded here explicitly. -/
def registerMount (mountPath : Str) (registry : Option RegistryShape)
    (ledger : List MountEntry) : List MountEntry :=
  ledger ++ [{ path := normalizeMountPath mountPath, registry := registry }]

/-- Processing of one mount entry by `combineRegistries` (lines 117-176):
skip invalid registries, use the root special case for mount path "/",
otherwise the general case with path rewriting. -/
def mergeEntry (baseDefs : List Defn) (e : MountEntry) : List Defn :=
  match e.registry with
  | none => baseDefs
  | some reg =>
    match reg.definitions with
    | none => baseDefs
    | some ds =>
      if e.path = rootPath then ds.foldl insertRootDef baseDefs
      else ds.foldl (insertGeneralDef e.path) baseDefs

/-- `combineRegistries` (src/src/utils.ts lines 109-179) acting on the base
registry's definition list: fold every ledger entry into the base. -/
def combineRegistries (baseDefs : List Defn) (ledger : List MountEntry) :
    List Defn :=
  ledger.foldl mergeEntry baseDefs

/-- Per-definition step of the inline merge inside the overridden
`generateOpenAPIDocument` (second file in src/src/utils.ts, lines 261-291 of
the concatenation): path definitions are deep-copied, rewritten and pushed
unconditionally; non-path definitions use the duplicate test. -/
def genInsertDef (mountPath : Str) (baseDefs : List Defn) (d : Defn) :
    List Defn :=
  if d.type = pathT then baseDefs ++ [adjustPathDef mountPath d]
  else
    if hasSameDef baseDefs d then baseDefs else baseDefs ++ [d]

/-- Processing of one mount entry by the `generateOpenAPIDocument` override:
skip invalid registries, otherwise fold every definition with
`genInsertDef` (no root special case). -/
def genMergeEntry (baseDefs : List Defn) (e : MountEntry) : List Defn :=
  match e.registry with
  | none => baseDefs
  | some reg =>
    match reg.definitions with
    | none => baseDefs
    | some ds => ds.foldl (genInsertDef e.path) baseDefs

/-- The registry merge performed by the overridden `generateOpenAPIDocument`
before calling the original document builder. -/
def genCombine (baseDefs : List Defn) (ledger : List MountEntry) :
    List Defn :=
  ledger.foldl genMergeEntry baseDefs

/-- Predicate: is this definition a path definition carrying the given
`(method, path)` pair? -/
def pairPred (m p : Str) (d : Defn) : Bool :=
  decide (d.type = pathT) && decide (d.schema.method = m) &&
    decide (d.schema.path = p)

/-- Number of path definitions in a list carrying a given
`(method, path)` pair. -/
def pairCount (ds : List Defn) (m p : Str) : Nat :=
  ds.countP (pairPred m p)

/-- Two named definitions (non-path, truthy name) of the same kind share
their name. -/
def namedClash (a b : Defn) : Prop :=
  a.type = b.type ∧ a.type ≠ pathT ∧ truthyName a.name = true ∧
    truthyName b.name = true ∧ a.name = b.name

/-- Two anonymous definitions (non-path, falsy name) of the same kind have
structurally equal schemas. -/
def anonClash (a b : Defn) : Prop :=
  a.type = b.type ∧ a.type ≠ pathT ∧ truthyName a.name = false ∧
    truthyName b.name = false ∧ a.schema = b.schema

/-- Registry invariant, path part: no `(method, path)` pair occurs on two
path definitions. -/
def InvPath (ds : List Defn) : Prop := ∀ m p, pairCount ds m p ≤ 1

/-- Registry invariant, named part: no two named definitions of the same
kind share a name. -/
def InvNamed (ds : List Defn) : Prop :=
  List.Pairwise (fun a b => ¬ namedClash a b) ds

/-- Registry invariant, anonymous part: no two anonymous definitions of the
same kind have structurally equal schemas. -/
def InvAnon (ds : List Defn) : Prop :=
  List.Pairwise (fun a b => ¬ anonClash a b) ds

/-- The duplicate test a definition of a mount entry is subject to in
`combineRegistries`, as a function of the current base list: the
name/schema test at the root mount, the `(method, rewritten path)` test for
path definitions elsewhere. -/
def blockedDef (mount : Str) (bd : List Defn) (d : Defn) : Bool :=
  if mount = rootPath then hasSameDef bd d
  else if d.type = pathT then hasPathDup bd (adjustPathDef mount d)
  else hasSameDef bd d

/-- The definitions a mount entry contributes ([] when the registry or its
definitions collection is missing). -/
def entryDefs (e : MountEntry) : List Defn :=
  match e.registry with
  | none => []
  | some reg =>
    match reg.definitions with
    | none => []
    | some ds => ds

/-- Every definition of the entry is blocked (would be dropped as a
duplicate) against the given base list. -/
def entryDone (bd : List Defn) (e : MountEntry) : Prop :=
  ∀ d ∈ entryDefs e, blockedDef e.path bd d = true

/-- HTTP verbs enhanced by `enhanceHttpMethods`. -/
inductive HttpMethod where
  | get | post | put | patch | delete | options | head
  deriving DecidableEq, Repr

/-- The method's name as it appears in the thrown error message. -/
def methodName : HttpMethod → Str
  | .get => strL ("get")
  | .post => strL ("post")
  | .put => strL ("put")
  | .patch => strL ("patch")
  | .delete => strL ("delete")
  | .options => strL ("options")
  | .head => strL ("head")

/-- An options object passed to an enhanced verb method.  The dispatcher only
reads its `path` field; the remaining fields (body, query, responses, ...)
are abstracted by `payload`, with equal payloads meaning deeply equal
remaining fields. -/
structure OptObj where
  path : Option Str
  payload : Nat
  deriving DecidableEq, Repr

/-- One argument of a verb-method call, by its JavaScript classification:
a string, a plain keyed object, an array, a RegExp, a function (handler),
or null.  Only plain objects pass the options-object test of the source
(`typeof === 'object' && !== null && !Array.isArray && !(instanceof RegExp)`). -/
inductive ArgVal where
  | str (s : Str)
  | obj (o : OptObj)
  | arrVal
  | regexVal
  | fn (id : Nat)
  | nullVal
  deriving DecidableEq, Repr

/-- An argument forwarded to the underlying registration method: either one
of the original arguments or a validation middleware produced by the
factory. -/
inductive FwdVal (MW : Type) where
  | arg (a : ArgVal)
  | mid (mw : MW)
  deriving DecidableEq, Repr

/-- Outcome of a wrapped verb-method call: a synchronously thrown error, or
one call forwarded to the underlying registration method. -/
inductive DispatchResult (MW : Type) where
  | thrown (msg : Str)
  | forwarded (out : List (FwdVal MW))
  deriving DecidableEq, Repr

/-- The error message thrown when a shape-1 options object lacks a path:
the text `Path is required when using options as first argument for `
followed by the method name. -/
def pathErrMsg (method : HttpMethod) : Str :=
  strL ("Path is required when using options as first argument for ") ++
    methodName method

/-- The wrapped verb method installed by `enhanceHttpMethods`
(src/src/utils.ts lines 20-51), instrumented to also return the list of
`createEndpoint` factory invocations in order.  Shape 1: at least two
arguments with a leading plain object; shape 2: at least three arguments
with a leading string then a plain object; anything else is forwarded
unchanged. -/
def enhancedCall {MW : Type} (ce : HttpMethod → Str → OptObj → MW)
    (method : HttpMethod) (args : List ArgVal) :
    DispatchResult MW × List (HttpMethod × Str × OptObj) :=
  match args with
  | .obj opts :: handler :: rest =>
    (match opts.path with
     | none => (.thrown (pathErrMsg method), [])
     | some p =>
       if p = [] then (.thrown (pathErrMsg method), [])
       else
         (.forwarded (.arg (.str p) :: .mid (ce method p opts) ::
            .arg handler :: rest.map .arg), [(method, p, opts)]))
  | .str p :: .obj opts :: handler :: rest =>
    (.forwarded (.arg (.str p) :: .mid (ce method p opts) ::
       .arg handler :: rest.map .arg), [(method, p, opts)])
  | _ => (.forwarded (args.map .arg), [])

/-- Detection rule of shape 1: more than one argument and a leading plain
object. -/
def isShape1 : List ArgVal → Bool
  | .obj _ :: _ :: _ => true
  | _ => false

/-- Detection rule of shape 2: more than two arguments, a leading string and
a second plain object. -/
def isShape2 : List ArgVal → Bool
  | .str _ :: .obj _ :: _ :: _ => true
  | _ => false

/-- Does a forwarded argument list contain a created validation middleware? -/
def hasMid {MW : Type} (out : List (FwdVal MW)) : Bool :=
  out.any fun v => match v with
    | .mid _ => true
    | .arg _ => false

/-- A value appearing in a `use` call: a string (mount path) or a
middleware-like value carrying the `_isRouterPlus` marker and the
`_registry` reference (absent when falsy). -/
inductive UseArg where
  | str (s : Str)
  | val (isRouterPlus : Bool) (registry : Option RegistryShape)
  deriving DecidableEq, Repr

/-- The check `middleware && middleware._isRouterPlus && middleware._registry`
applied to a `use` argument; returns the registry when both markers are
truthy.  A string has neither marker. -/
def argMarked : UseArg → Option RegistryShape
  | .val true (some r) => some r
  | _ => none

/-- The mount path chosen in case 1 of the wrapped `use`:
`typeof args[0] === 'string' ? args[0] : '/'`. -/
def pathArg : UseArg → Str
  | .str s => s
  | _ => rootPath

/-- The wrapped `use` method installed by `expressPlus` (and identically by
`routerPlus`): with at least two arguments it records `args[1]` when marked,
with exactly one argument it records `args[0]` at "/" when marked, and it
always forwards the arguments unchanged to the original `use`. -/
def usePlus (args : List UseArg) (ledger : List MountEntry) :
    List MountEntry × List UseArg :=
  let l1 :=
    match args with
    | a0 :: a1 :: _ =>
      match argMarked a1 with
      | some r => registerMount (pathArg a0) (some r) ledger
      | none => ledger
    | _ => ledger
  let l2 :=
    match args with
    | [a] =>
      match argMarked a with
      | some r => registerMount rootPath (some r) l1
      | none => l1
    | _ => l1
  (l2, args)

/-- Explicit-heap state for the composition engine: definitions live in an
append-only heap addressed by position, and the base registry's
`definitions` array is a list of addresses.  Mounted registries' address
lists are inputs and never rebuilt; mutation of a shared definition would
show up as a changed heap cell. -/
structure StoreState where
  heap : List Defn
  base : List Nat
  deriving DecidableEq, Repr

/-- Read the definition stored at a heap address. -/
def readA (heap : List Defn) (a : Nat) : Option Defn := heap[a]?

/-- Heap-level `pathDupMatch` scan over the base registry's addresses. -/
def hasPathDupS (heap : List Defn) (base : List Nat) (adjusted : Defn) :
    Bool :=
  base.any fun b =>
    match readA heap b with
    | some bd => pathDupMatch adjusted bd
    | none => false

/-- Heap-level `sameDefMatch` scan over the base registry's addresses. -/
def hasSameDefS (heap : List Defn) (base : List Nat) (d : Defn) : Bool :=
  base.any fun b =>
    match readA heap b with
    | some bd => sameDefMatch d bd
    | none => false

/-- Heap-level root-path insertion of `combineRegistries`: the sub-registry's
definition is shared (its address is pushed), never copied or altered. -/
def insertRootDefS (st : StoreState) (a : Nat) : StoreState :=
  match readA st.heap a with
  | none => st
  | some d =>
    if hasSameDefS st.heap st.base d then st
    else { st with base := st.base ++ [a] }

/-- Heap-level general insertion of `combineRegistries`: a path definition is
deep-copied (`JSON.parse(JSON.stringify(def))` becomes a fresh allocation)
and the copy rewritten; the original cell is never written.  Non-path
definitions are shared by address. -/
def insertGeneralDefS (mountPath : Str) (st : StoreState) (a : Nat) :
    StoreState :=
  match readA st.heap a with
  | none => st
  | some d =>
    if d.type = pathT then
      let adjusted := adjustPathDef mountPath d
      let heap1 := st.heap ++ [adjusted]
      if hasPathDupS heap1 st.base adjusted then { st with heap := heap1 }
      else { heap := heap1, base := st.base ++ [st.heap.length] }
    else
      if hasSameDefS st.heap st.base d then st
      else { st with base := st.base ++ [a] }

/-- A mount entry in the heap model: the registry's definitions collection
is a list of heap addresses. -/
structure MountEntryS where
  path : Str
  registry : Option (Option (List Nat))
  deriving DecidableEq, Repr

/-- Heap-level processing of one mount entry by `combineRegistries`. -/
def mergeEntryS (st : StoreState) (e : MountEntryS) : StoreState :=
  match e.registry with
  | none => st
  | some reg =>
    match reg with
    | none => st
    | some ds =>
      if e.path = rootPath then ds.foldl insertRootDefS st
      else ds.foldl (insertGeneralDefS e.path) st

/-- Heap-level `combineRegistries`. -/
def combineRegistriesS (st : StoreState) (ledger : List MountEntryS) :
    StoreState :=
  ledger.foldl mergeEntryS st

/-- Heap-level per-definition step of the `generateOpenAPIDocument` merge:
path definitions are deep-copied (fresh allocation) and the copy pushed
unconditionally; non-path definitions are shared by address after the
duplicate test. -/
def genInsertDefS (mountPath : Str) (st : StoreState) (a : Nat) :
    StoreState :=
  match readA st.heap a with
  | none => st
  | some d =>
    if d.type = pathT then
      { heap := st.heap ++ [adjustPathDef mountPath d],
        base := st.base ++ [st.heap.length] }
    else
      if hasSameDefS st.heap st.base d then st
      else { st with base := st.base ++ [a] }

/-- Heap-level processing of one mount entry by the
`generateOpenAPIDocument` merge. -/
def genMergeEntryS (st : StoreState) (e : MountEntryS) : StoreState :=
  match e.registry with
  | none => st
  | some reg =>
    match reg with
    | none => st
    | some ds => ds.foldl (genInsertDefS e.path) st

/-- Heap-level `generateOpenAPIDocument` merge. -/
def genCombineS (st : StoreState) (ledger : List MountEntryS) : StoreState :=
  ledger.foldl genMergeEntryS st

theorem hasMid_map_arg {MW : Type} (args : List ArgVal) :
    hasMid (args.map FwdVal.arg : List (FwdVal MW)) = false := by
  simp [hasMid, List.any_map, Function.comp_def]

theorem passthrough_of_not_shapes {MW : Type}
    (ce : HttpMethod → Str → OptObj → MW) (method : HttpMethod)
    (args : List ArgVal) (h1 : isShape1 args = false)
    (h2 : isShape2 args = false) :
    enhancedCall ce method args = (.forwarded (args.map .arg), []) := by
  cases args with
  | nil => rfl
  | cons a t =>
    cases a with
    | obj o =>
      cases t with
      | nil => rfl
      | cons b u => simp [isShape1] at h1
    | str s =>
      cases t with
      | nil => rfl
      | cons b u =>
        cases b with
        | obj o =>
          cases u with
          | nil => rfl
          | cons c v => simp [isShape2] at h2
        | str _ => cases u <;> rfl
        | arrVal => cases u <;> rfl
        | regexVal => cases u <;> rfl
        | fn _ => cases u <;> rfl
        | nullVal => cases u <;> rfl
    | arrVal => cases t <;> rfl
    | regexVal => cases t <;> rfl
    | fn _ => cases t <;> rfl
    | nullVal => cases t <;> rfl

/-- Claim C6: a shape-1 call (two or more arguments, leading plain object) whose
options object has no `path` field makes the wrapped verb method throw a
synchronous error whose message names the offending HTTP method; the
validation-middleware factory is never invoked (empty invocation list) and
no registration call reaches the underlying method (the result is a throw,
not a forwarded call). -/
theorem c6_missing_path_thrown {MW : Type}
    (ce : HttpMethod → Str → OptObj → MW) (method : HttpMethod)
    (o : OptObj) (handler : ArgVal) (rest : List ArgVal)
    (h : o.path = none) :
    enhancedCall ce method (.obj o :: handler :: rest) =
      (.thrown (pathErrMsg method), []) ∧
    methodName method <:+ pathErrMsg method := by
  constructor
  · simp [enhancedCall, h]
  · exact List.suffix_append _ _

theorem c6_witness :
    enhancedCall (fun _ _ _ => (0 : Nat)) HttpMethod.post
        [ArgVal.obj ⟨none, 0⟩, ArgVal.fn 0] =
      (.thrown (pathErrMsg HttpMethod.post), []) ∧
    methodName HttpMethod.post <:+ pathErrMsg HttpMethod.post :=
  c6_missing_path_thrown (fun _ _ _ => (0 : Nat)) HttpMethod.post
    ⟨none, 0⟩ (ArgVal.fn 0) [] rfl

/-- Claim C7: with a factory whose middleware depends only on the method, the path
and the non-path option fields, a shape-1 call with options carrying
path "/x" and a shape-2 call on the same path and options each forward
exactly one registration of the form (path, middleware, handler, rest) with
the middleware immediately before the handler, both built from one factory
invocation; the two registrations are identical; and any call matching
neither shape is forwarded unchanged with no middleware inserted. -/
theorem c7_shape_classification {MW : Type}
    (ce : HttpMethod → Str → OptObj → MW)
    (hce : ∀ m p o o', o.payload = o'.payload → ce m p o = ce m p o')
    (method : HttpMethod) (s : Str) (hs : s ≠ []) (payload : Nat)
    (handler : ArgVal) (rest : List ArgVal) :
    (enhancedCall ce method (.obj ⟨some s, payload⟩ :: handler :: rest) =
      (.forwarded (.arg (.str s) :: .mid (ce method s ⟨some s, payload⟩) ::
         .arg handler :: rest.map .arg), [(method, s, ⟨some s, payload⟩)])) ∧
    (enhancedCall ce method
        (.str s :: .obj ⟨none, payload⟩ :: handler :: rest) =
      (.forwarded (.arg (.str s) :: .mid (ce method s ⟨none, payload⟩) ::
         .arg handler :: rest.map .arg), [(method, s, ⟨none, payload⟩)])) ∧
    ((enhancedCall ce method
        (.obj ⟨some s, payload⟩ :: handler :: rest)).1 =
      (enhancedCall ce method
        (.str s :: .obj ⟨none, payload⟩ :: handler :: rest)).1) ∧
    (∀ args : List ArgVal, isShape1 args = false → isShape2 args = false →
      enhancedCall ce method args = (.forwarded (args.map .arg), []) ∧
      hasMid (args.map FwdVal.arg : List (FwdVal MW)) = false) := by
  have e1 : enhancedCall ce method
      (.obj ⟨some s, payload⟩ :: handler :: rest) =
      (.forwarded (.arg (.str s) :: .mid (ce method s ⟨some s, payload⟩) ::
         .arg handler :: rest.map .arg), [(method, s, ⟨some s, payload⟩)]) := by
    simp [enhancedCall, hs]
  have e2 : enhancedCall ce method
      (.str s :: .obj ⟨none, payload⟩ :: handler :: rest) =
      (.forwarded (.arg (.str s) :: .mid (ce method s ⟨none, payload⟩) ::
         .arg handler :: rest.map .arg), [(method, s, ⟨none, payload⟩)]) := by
    simp [enhancedCall]
  refine ⟨e1, e2, ?_, ?_⟩
  · rw [e1, e2]
    simp only []
    rw [hce method s ⟨some s, payload⟩ ⟨none, payload⟩ rfl]
  · intro args h1 h2
    exact ⟨passthrough_of_not_shapes ce method args h1 h2,
      hasMid_map_arg args⟩

theorem c7_witness :
    ((strL ("/x") : Str) ≠ []) ∧
    (enhancedCall (fun _ _ o => o.payload) HttpMethod.post
        [ArgVal.obj ⟨some (strL ("/x")), 5⟩, ArgVal.fn 1]).1 =
      (enhancedCall (fun _ _ o => o.payload) HttpMethod.post
        [ArgVal.str (strL ("/x")), ArgVal.obj ⟨none, 5⟩, ArgVal.fn 1]).1 :=
  ⟨by decide,
    (c7_shape_classification (fun _ _ o => o.payload)
      (fun _ _ _ _ h => h) HttpMethod.post (strL ("/x")) (by decide) 5
      (ArgVal.fn 1) []).2.2.1⟩

/-- Claim C10: a call with exactly two arguments, a string path and a plain options
object, matches neither shape 1 (leading object required) nor shape 2 (more
than two arguments required): it is forwarded unchanged with no validation
middleware inserted and no factory invocation. -/
theorem c10_two_arg_passthrough {MW : Type}
    (ce : HttpMethod → Str → OptObj → MW) (method : HttpMethod)
    (s : Str) (o : OptObj) :
    enhancedCall ce method [.str s, .obj o] =
      (.forwarded [.arg (.str s), .arg (.obj o)], []) ∧
    isShape2 [ArgVal.str s, ArgVal.obj o] = false ∧
    hasMid ([FwdVal.arg (.str s), .arg (.obj o)] : List (FwdVal MW)) = false :=
  ⟨rfl, rfl, rfl⟩

theorem startsSlash_cons (c : Char) (l : Str) :
    startsSlash (c :: l) = (c == '/') := rfl

theorem hasDS_cons (c : Char) (l : Str) :
    hasDS (c :: l) = ((c == '/') && startsSlash l || hasDS l) := rfl

theorem startsSlash_append_of_ne_nil (x y : Str) (h : x ≠ []) :
    startsSlash (x ++ y) = startsSlash x := by
  cases x with
  | nil => exact absurd rfl h
  | cons c t => rfl

theorem endsSlash_concat (l : Str) (c : Char) :
    endsSlash (l ++ [c]) = (c == '/') := by
  simp [endsSlash, startsSlash, List.reverse_append]

theorem endsSlash_cons (c : Char) (t : Str) :
    endsSlash (c :: t) = (if t = [] then c == '/' else endsSlash t) := by
  rcases List.eq_nil_or_concat t with h | ⟨u, d, h⟩
  · subst h; rfl
  · subst h
    simp only [List.concat_eq_append]
    have hne : u ++ [d] ≠ ([] : Str) := by simp
    rw [if_neg hne]
    have h2 : c :: (u ++ [d]) = (c :: u) ++ [d] := by simp
    rw [h2, endsSlash_concat, endsSlash_concat]

theorem hasDS_concat (l : Str) (c : Char) :
    hasDS (l ++ [c]) = (hasDS l || (endsSlash l && (c == '/'))) := by
  induction l with
  | nil => simp [hasDS, startsSlash, endsSlash]
  | cons a t ih =>
    rw [List.cons_append, hasDS_cons, ih, hasDS_cons, endsSlash_cons]
    cases t with
    | nil => simp [hasDS, startsSlash, endsSlash, Bool.or_comm]
    | cons x u =>
      rw [List.cons_append, startsSlash_cons, startsSlash_cons]
      simp [Bool.or_assoc]

theorem hasDS_dropLast (l : Str) (h : hasDS l.dropLast = true) :
    hasDS l = true := by
  rcases List.eq_nil_or_concat l with h2 | ⟨u, d, h2⟩
  · subst h2; exact h
  · subst h2
    simp only [List.concat_eq_append] at h ⊢
    rw [List.dropLast_concat] at h
    rw [hasDS_concat, h, Bool.true_or]

theorem endsDS_imp_hasDS (l : Str) (h : endsDS l = true) : hasDS l = true := by
  rcases List.eq_nil_or_concat l with h2 | ⟨u, d, h2⟩
  · subst h2; simp [endsDS, endsSlash, startsSlash] at h
  · subst h2
    simp only [List.concat_eq_append] at h ⊢
    rw [endsDS, endsSlash_concat, List.dropLast_concat, Bool.and_eq_true] at h
    rw [hasDS_concat, h.2, h.1, Bool.and_true, Bool.or_true]

theorem startsSlash_normalize (m : Str) :
    startsSlash (normalizeMountPath m) = true := by
  rw [normalizeMountPath]
  have hp1 : ∀ p1 : Str, startsSlash p1 = true →
      startsSlash (if endsSlash p1 && decide (1 < p1.length) then
        p1.dropLast else p1) = true := by
    intro p1 hs
    by_cases hc : (endsSlash p1 && decide (1 < p1.length)) = true
    · rw [if_pos hc]
      rcases p1 with _ | ⟨c, t⟩
      · simp [startsSlash] at hs
      · rcases t with _ | ⟨d, u⟩
        · simp at hc
        · rw [show (c :: d :: u).dropLast = c :: (d :: u).dropLast from rfl]
          exact hs
    · rw [if_neg hc]; exact hs
  by_cases hs : startsSlash m = true
  · rw [if_pos hs]; exact hp1 m hs
  · rw [if_neg hs]
    exact hp1 ('/' :: m) (by rw [startsSlash_cons]; rfl)

theorem endsDS_prepend (m : Str) (h : endsDS m = false)
    (hs : startsSlash m = false) :
    endsDS ('/' :: m) = false := by
  rcases m with _ | ⟨x, t⟩
  · simp [endsDS, endsSlash, startsSlash]
  · rcases List.eq_nil_or_concat t with h2 | ⟨u, d, h2⟩
    · subst h2
      have hx : (x == '/') = false := by rwa [startsSlash_cons] at hs
      rw [show ('/' :: [x] : Str) = ['/'] ++ [x] from rfl]
      rw [endsDS, endsSlash_concat, List.dropLast_concat, hx, Bool.false_and]
    · subst h2
      simp only [List.concat_eq_append] at h ⊢
      rw [show ('/' :: (x :: (u ++ [d]))) = ('/' :: x :: u) ++ [d] from by simp]
      rw [endsDS, endsSlash_concat, List.dropLast_concat]
      rw [show (x :: (u ++ [d])) = (x :: u) ++ [d] from by simp] at h
      rw [endsDS, endsSlash_concat, List.dropLast_concat] at h
      rcases Bool.and_eq_false_iff.mp h with h1 | h2
      · rw [h1]; simp
      · rw [show endsSlash ('/' :: x :: u) = endsSlash (x :: u) from by
          rw [endsSlash_cons]; simp]
        rw [h2]; simp

theorem normalize_not_endsSlash (m : Str) (h : endsDS m = false) :
    normalizeMountPath m = rootPath ∨
      endsSlash (normalizeMountPath m) = false := by
  rw [normalizeMountPath]
  have key : ∀ p1 : Str, startsSlash p1 = true → endsDS p1 = false →
      (if endsSlash p1 && decide (1 < p1.length) then p1.dropLast else p1) =
        rootPath ∨
      endsSlash (if endsSlash p1 && decide (1 < p1.length) then
        p1.dropLast else p1) = false := by
    intro p1 hs hds
    by_cases hc : (endsSlash p1 && decide (1 < p1.length)) = true
    · rw [if_pos hc]
      right
      rw [Bool.and_eq_true] at hc
      obtain ⟨he, _⟩ := hc
      by_contra hend
      rw [Bool.not_eq_false] at hend
      have hcontra : endsDS p1 = true := by rw [endsDS, he, hend]; rfl
      rw [hds] at hcontra; exact Bool.false_ne_true hcontra
    · rw [if_neg hc]
      rcases Bool.and_eq_false_iff.mp (Bool.eq_false_iff.mpr hc) with h1 | h2
      · right; exact h1
      · left
        have hlen : p1.length ≤ 1 := by
          by_contra hl
          rw [decide_eq_false_iff_not] at h2
          omega
        rcases p1 with _ | ⟨c, t⟩
        · simp [startsSlash] at hs
        · rcases t with _ | ⟨d, u⟩
          · rw [startsSlash_cons, beq_iff_eq] at hs
            rw [hs]; rfl
          · simp at hlen
  by_cases hs : startsSlash m = true
  · rw [if_pos hs]; exact key m hs h
  · rw [if_neg hs]
    exact key ('/' :: m) (by rw [startsSlash_cons]; rfl)
      (endsDS_prepend m h (Bool.eq_false_iff.mpr hs))

theorem normalize_noDS (m : Str) (h : hasDS m = false) :
    hasDS (normalizeMountPath m) = false := by
  rw [normalizeMountPath]
  have hp1 : ∀ p1 : Str, hasDS p1 = false →
      hasDS (if endsSlash p1 && decide (1 < p1.length) then
        p1.dropLast else p1) = false := by
    intro p1 hp
    by_cases hc : (endsSlash p1 && decide (1 < p1.length)) = true
    · rw [if_pos hc]
      by_contra hd
      rw [Bool.not_eq_false] at hd
      rw [hasDS_dropLast p1 hd] at hp
      exact Bool.noConfusion hp
    · rw [if_neg hc]; exact hp
  by_cases hs : startsSlash m = true
  · rw [if_pos hs]; exact hp1 m h
  · rw [if_neg hs]
    refine hp1 ('/' :: m) ?_
    rw [hasDS_cons, Bool.eq_false_iff.mpr hs, Bool.and_false, Bool.false_or]
    exact h

theorem stripLeadingSlash_noDS (p : Str) (h : hasDS p = false) :
    hasDS (stripLeadingSlash p) = false ∧
      startsSlash (stripLeadingSlash p) = false := by
  rw [stripLeadingSlash]
  by_cases hs : startsSlash p = true
  · rw [if_pos hs]
    rcases p with _ | ⟨c, t⟩
    · simp [startsSlash] at hs
    · rw [startsSlash_cons] at hs
      rw [hasDS_cons, hs, Bool.true_and, Bool.or_eq_false_iff] at h
      exact ⟨by simpa using h.2, by simpa using h.1⟩
  · rw [if_neg hs]
    exact ⟨h, Bool.eq_false_iff.mpr hs⟩

theorem noDS_join (mount sub : Str) (h1 : hasDS mount = false)
    (h2 : endsSlash mount = false) (h3 : hasDS sub = false)
    (h4 : startsSlash sub = false) :
    hasDS (mount ++ '/' :: sub) = false := by
  induction mount with
  | nil =>
    rw [List.nil_append, hasDS_cons, h3, h4]
    simp
  | cons a t ih =>
    rw [List.cons_append, hasDS_cons]
    rw [hasDS_cons, Bool.or_eq_false_iff] at h1
    rw [endsSlash_cons] at h2
    cases t with
    | nil =>
      simp at h2
      simp [hasDS_cons, startsSlash_cons, h2, h3, h4]
    | cons x u =>
      have hne : (x :: u : Str) ≠ [] := by simp
      rw [if_neg hne] at h2
      rw [startsSlash_append_of_ne_nil _ _ hne, ih h1.2 h2]
      rw [show startsSlash (x :: u) = (x == '/') from rfl] at *
      rcases Bool.and_eq_false_iff.mp h1.1 with ha | hx
      · rw [ha]; simp
      · rw [hx]; simp

/-- Claim C4 as stated is violated: the mount path "a//" is accepted by
`registerMount` and normalizes to "/a/" (only one trailing slash is
stripped), so the rewritten path for sub-path "x" is "/a//x", which
contains a double slash. -/
theorem c4_double_slash_example :
    hasDS ((adjustPathDef (normalizeMountPath (strL ("a//")))
      ⟨pathT, none, ⟨strL ("x"), strL ("get"), 0⟩⟩).schema.path) = true := by
  decide

/-- Claim C4 amended: when neither the recorded mount-path string nor the
sub-registry's path contains two consecutive slashes, the rewritten path
produced by composition contains no double slash; and the join always
inserts exactly one slash between the normalized mount path (or the root
slash) and the stripped sub-path, so no slash is missing at the join point.
The guarantee as originally stated fails for inputs that already carry a
double slash (see the counterexample). -/
theorem c4_rewrite_no_double_slash (m : Str) (d : Defn)
    (hm : hasDS m = false) (hp : hasDS d.schema.path = false) :
    hasDS ((adjustPathDef (normalizeMountPath m) d).schema.path) = false ∧
    (adjustPathDef (normalizeMountPath m) d).schema.path =
      (if normalizeMountPath m = rootPath then
        '/' :: stripLeadingSlash d.schema.path
       else normalizeMountPath m ++ '/' :: stripLeadingSlash d.schema.path) := by
  obtain ⟨hds, hss⟩ := stripLeadingSlash_noDS d.schema.path hp
  constructor
  · rw [adjustPathDef]
    by_cases hr : normalizeMountPath m = rootPath
    · rw [if_pos hr]
      simp only []
      rw [hasDS_cons, hds, hss]
      simp
    · rw [if_neg hr]
      simp only []
      have hnds := normalize_noDS m hm
      have hed : endsDS m = false := by
        by_contra he
        rw [Bool.not_eq_false] at he
        rw [endsDS_imp_hasDS m he] at hm
        exact Bool.noConfusion hm
      have hnes : endsSlash (normalizeMountPath m) = false := by
        rcases normalize_not_endsSlash m hed with h | h
        · exact absurd h hr
        · exact h
      exact noDS_join _ _ hnds hnes hds hss
  · by_cases hr : normalizeMountPath m = rootPath <;>
      simp [adjustPathDef, hr]

theorem c4_witness :
    hasDS (strL ("api")) = false ∧
    hasDS (strL ("/users")) = false ∧
    hasDS ((adjustPathDef (normalizeMountPath (strL ("api")))
      ⟨pathT, none, ⟨strL ("/users"), strL ("get"), 0⟩⟩).schema.path) = false :=
  ⟨by decide, by decide,
    (c4_rewrite_no_double_slash (strL ("api"))
      ⟨pathT, none, ⟨strL ("/users"), strL ("get"), 0⟩⟩
      (by decide) (by decide)).1⟩

/-- Claim C5 as stated is violated: `record("/api//", R)` stores the mount path
"/api/", which ends with a slash and is not exactly "/" (only a single
trailing slash is stripped by the normalization). -/
theorem c5_trailing_slash_example :
    endsSlash (normalizeMountPath (strL ("/api//"))) = true ∧
    normalizeMountPath (strL ("/api//")) ≠ rootPath :=
  ⟨by decide, by decide⟩

/-- Claim C5 amended: the stored mount path always begins with "/"; the three
example inputs "api/", "/api" and "/api/" all store "/api"; and the stored
path never ends with "/" unless it is exactly "/", provided the input does
not end with two consecutive slashes (the normalization strips only one
trailing slash, so inputs ending in "//" keep a trailing slash — see the
counterexample). -/
theorem c5_mount_normalization :
    (normalizeMountPath (strL ("api/")) = strL ("/api") ∧
     normalizeMountPath (strL ("/api")) = strL ("/api") ∧
     normalizeMountPath (strL ("/api/")) = strL ("/api")) ∧
    (∀ m : Str, startsSlash (normalizeMountPath m) = true) ∧
    (∀ m : Str, endsDS m = false →
      normalizeMountPath m = rootPath ∨
        endsSlash (normalizeMountPath m) = false) := by
  refine ⟨⟨by decide, by decide, by decide⟩, startsSlash_normalize, ?_⟩
  intro m h
  exact normalize_not_endsSlash m h

theorem c5_witness :
    endsDS (strL ("ab/")) = false ∧
    (normalizeMountPath (strL ("ab/")) = rootPath ∨
      endsSlash (normalizeMountPath (strL ("ab/"))) = false) :=
  ⟨by decide, (c5_mount_normalization).2.2 (strL ("ab/")) (by decide)⟩

theorem hasPathDup_iff_pairCount (bd : List Defn) (a : Defn) :
    hasPathDup bd a = true ↔
      0 < pairCount bd a.schema.method a.schema.path := by
  have hpred : ∀ b : Defn, pathDupMatch a b = true ↔
      pairPred a.schema.method a.schema.path b = true := by
    intro b
    simp only [pathDupMatch, pairPred, Bool.and_eq_true, decide_eq_true_eq]
    tauto
  rw [hasPathDup, pairCount, List.any_eq_true, List.countP_pos_iff]
  constructor
  · rintro ⟨b, hb, hm⟩; exact ⟨b, hb, (hpred b).mp hm⟩
  · rintro ⟨b, hb, hm⟩; exact ⟨b, hb, (hpred b).mpr hm⟩

theorem pairCount_append (bd : List Defn) (x : Defn) (m p : Str) :
    pairCount (bd ++ [x]) m p =
      pairCount bd m p + (if pairPred m p x = true then 1 else 0) := by
  rw [pairCount, pairCount, List.countP_append]
  simp [List.countP_cons]

theorem insertGeneralDef_pairCount (mount : Str) (bd : List Defn) (d : Defn)
    (m p : Str) :
    pairCount bd m p ≤ pairCount (insertGeneralDef mount bd d) m p ∧
    pairCount (insertGeneralDef mount bd d) m p ≤
      max 1 (pairCount bd m p) := by
  rw [insertGeneralDef]
  by_cases ht : d.type = pathT
  · rw [if_pos ht]
    simp only []
    by_cases hd : hasPathDup bd (adjustPathDef mount d) = true
    · rw [if_pos hd]
      exact ⟨le_refl _, le_max_right _ _⟩
    · rw [if_neg hd]
      rw [pairCount_append]
      by_cases hp : pairPred m p (adjustPathDef mount d) = true
      · rw [if_pos hp]
        have h0 : pairCount bd m p = 0 := by
          have hiff := hasPathDup_iff_pairCount bd (adjustPathDef mount d)
          rw [pairPred, Bool.and_eq_true, Bool.and_eq_true,
            decide_eq_true_eq, decide_eq_true_eq, decide_eq_true_eq] at hp
          obtain ⟨⟨_, hm2⟩, hp2⟩ := hp
          rw [← hm2, ← hp2]
          by_contra hne
          exact hd (hiff.mpr (Nat.pos_of_ne_zero hne))
        rw [h0]
        constructor
        · omega
        · have : max 1 0 = 1 := rfl
          omega
      · rw [if_neg hp]
        simp only [Nat.add_zero]
        exact ⟨le_refl _, le_max_right _ _⟩
  · rw [if_neg ht]
    by_cases hs : hasSameDef bd d = true
    · rw [if_pos hs]
      exact ⟨le_refl _, le_max_right _ _⟩
    · rw [if_neg hs]
      rw [pairCount_append]
      have hp : pairPred m p d = false := by
        rw [pairPred, decide_eq_false ht]
        simp
      have hz : (if pairPred m p d = true then 1 else 0) = 0 := by
        rw [hp]; rfl
      rw [hz, Nat.add_zero]
      exact ⟨le_refl _, le_max_right _ _⟩

theorem foldl_general_pairCount (mount : Str) (ds : List Defn) (bd : List Defn)
    (m p : Str) :
    pairCount bd m p ≤
      pairCount (ds.foldl (insertGeneralDef mount) bd) m p ∧
    pairCount (ds.foldl (insertGeneralDef mount) bd) m p ≤
      max 1 (pairCount bd m p) := by
  induction ds generalizing bd with
  | nil => exact ⟨le_refl _, le_max_right _ _⟩
  | cons d t ih =>
    rw [List.foldl_cons]
    obtain ⟨s1, s2⟩ := insertGeneralDef_pairCount mount bd d m p
    obtain ⟨i1, i2⟩ := ih (insertGeneralDef mount bd d)
    refine ⟨le_trans s1 i1, le_trans i2 ?_⟩
    have h1 : max 1 (pairCount (insertGeneralDef mount bd d) m p) ≤
        max 1 (max 1 (pairCount bd m p)) :=
      max_le_max (le_refl 1) s2
    have h2 : max 1 (max 1 (pairCount bd m p)) = max 1 (pairCount bd m p) := by
      rw [← max_assoc, max_self]
    rw [h2] at h1
    exact h1

theorem mergeEntry_pairCount (bd : List Defn) (e : MountEntry)
    (hroot : e.path ≠ rootPath) (m p : Str) :
    pairCount bd m p ≤ pairCount (mergeEntry bd e) m p ∧
    pairCount (mergeEntry bd e) m p ≤ max 1 (pairCount bd m p) := by
  obtain ⟨epath, ereg⟩ := e
  rcases ereg with _ | ⟨edefs⟩
  · exact ⟨le_refl _, le_max_right _ _⟩
  · rcases edefs with _ | ds
    · exact ⟨le_refl _, le_max_right _ _⟩
    · simp only [mergeEntry]
      rw [if_neg hroot]
      exact foldl_general_pairCount epath ds bd m p

theorem combine_pairCount (ledger : List MountEntry) (bd : List Defn)
    (hroot : ∀ e ∈ ledger, e.path ≠ rootPath) (m p : Str) :
    pairCount bd m p ≤ pairCount (combineRegistries bd ledger) m p ∧
    pairCount (combineRegistries bd ledger) m p ≤
      max 1 (pairCount bd m p) := by
  induction ledger generalizing bd with
  | nil => exact ⟨le_refl _, le_max_right _ _⟩
  | cons e t ih =>
    have hc : combineRegistries bd (e :: t) =
        combineRegistries (mergeEntry bd e) t := rfl
    rw [hc]
    obtain ⟨s1, s2⟩ :=
      mergeEntry_pairCount bd e (hroot e (List.mem_cons_self _ _)) m p
    obtain ⟨i1, i2⟩ := ih (mergeEntry bd e)
      (fun e' he' => hroot e' (List.mem_cons_of_mem _ he'))
    refine ⟨le_trans s1 i1, le_trans i2 ?_⟩
    have h1 : max 1 (pairCount (mergeEntry bd e) m p) ≤
        max 1 (max 1 (pairCount bd m p)) :=
      max_le_max (le_refl 1) s2
    have h2 : max 1 (max 1 (pairCount bd m p)) = max 1 (pairCount bd m p) := by
      rw [← max_assoc, max_self]
    rw [h2] at h1
    exact h1

/-- Claim C1 as stated is violated on the `generateOpenAPIDocument` composition
path: with a base registry already containing a path definition for
(get, "/api/users") and a mount of "/api" contributing (get, "/users"), the
rewritten definition is inserted anyway, leaving two definitions with the
same `(method, rewritten path)` pair — it is not dropped. -/
theorem c1_genmerge_duplicate_pair :
    pairCount
      (genCombine [⟨pathT, none, ⟨strL ("/api/users"), strL ("get"), 0⟩⟩]
        [⟨strL ("/api"),
          some ⟨some [⟨pathT, none, ⟨strL ("/users"), strL ("get"), 1⟩⟩]⟩⟩])
      (strL ("get")) (strL ("/api/users")) = 2 := by decide

/-- Claim C1 amended: first-writer-wins holds for the `combineRegistries`
composition path.  Over a ledger of non-root mount entries, the number of
path definitions in the base carrying any fixed `(method, path)` pair never
decreases and never exceeds one unless the base already held duplicates:
once a pair is present, later rewritten contributions with that pair are
silently dropped.  On the `generateOpenAPIDocument` path, rewritten path
definitions are instead appended unconditionally (see the
counterexample). -/
theorem c1_combine_first_writer_wins (base : List Defn)
    (ledger : List MountEntry) (hroot : ∀ e ∈ ledger, e.path ≠ rootPath)
    (m p : Str) :
    pairCount base m p ≤ pairCount (combineRegistries base ledger) m p ∧
    pairCount (combineRegistries base ledger) m p ≤
      max 1 (pairCount base m p) :=
  combine_pairCount ledger base hroot m p

theorem c1_witness :
    (∀ e ∈ [(⟨strL ("/api"),
        some ⟨some [⟨pathT, none, ⟨strL ("/users"), strL ("get"), 1⟩⟩]⟩⟩ :
          MountEntry)], MountEntry.path e ≠ rootPath) ∧
    pairCount
        (combineRegistries
          [⟨pathT, none, ⟨strL ("/api/users"), strL ("get"), 0⟩⟩]
          [⟨strL ("/api"),
            some ⟨some [⟨pathT, none, ⟨strL ("/users"), strL ("get"), 1⟩⟩]⟩⟩])
        (strL ("get")) (strL ("/api/users")) ≤
      max 1 (pairCount
        [⟨pathT, none, ⟨strL ("/api/users"), strL ("get"), 0⟩⟩]
        (strL ("get")) (strL ("/api/users"))) :=
  ⟨by decide,
    (c1_combine_first_writer_wins
      [⟨pathT, none, ⟨strL ("/api/users"), strL ("get"), 0⟩⟩]
      [⟨strL ("/api"),
        some ⟨some [⟨pathT, none, ⟨strL ("/users"), strL ("get"), 1⟩⟩]⟩⟩]
      (by decide) (strL ("get")) (strL ("/api/users"))).2⟩

theorem invNamed_append (bd : List Defn) (x : Defn)
    (hx : x.type = pathT ∨ hasSameDef bd x = false) (h : InvNamed bd) :
    InvNamed (bd ++ [x]) := by
  rw [InvNamed, List.pairwise_append]
  refine ⟨h, List.pairwise_singleton _ _, ?_⟩
  intro a ha b hb
  simp only [List.mem_singleton] at hb
  subst hb
  rintro ⟨ht, hnp, hta, htx, hn⟩
  rcases hx with hp | hs
  · exact hnp (ht.trans hp)
  · have hmatch : sameDefMatch b a = true := by
      simp [sameDefMatch, htx, ht, hn]
    have hdup : hasSameDef bd b = true := by
      rw [hasSameDef, List.any_eq_true]
      exact ⟨a, ha, hmatch⟩
    rw [hs] at hdup
    exact Bool.noConfusion hdup

theorem invAnon_append (bd : List Defn) (x : Defn)
    (hx : x.type = pathT ∨ hasSameDef bd x = false) (h : InvAnon bd) :
    InvAnon (bd ++ [x]) := by
  rw [InvAnon, List.pairwise_append]
  refine ⟨h, List.pairwise_singleton _ _, ?_⟩
  intro a ha b hb
  simp only [List.mem_singleton] at hb
  subst hb
  rintro ⟨ht, hnp, hta, htx, hsch⟩
  rcases hx with hp | hs
  · exact hnp (ht.trans hp)
  · have hmatch : sameDefMatch b a = true := by
      simp [sameDefMatch, htx, ht, hsch]
    have hdup : hasSameDef bd b = true := by
      rw [hasSameDef, List.any_eq_true]
      exact ⟨a, ha, hmatch⟩
    rw [hs] at hdup
    exact Bool.noConfusion hdup

theorem insertRootDef_inv23 (bd : List Defn) (d : Defn)
    (h2 : InvNamed bd) (h3 : InvAnon bd) :
    InvNamed (insertRootDef bd d) ∧ InvAnon (insertRootDef bd d) := by
  rw [insertRootDef]
  by_cases hs : hasSameDef bd d = true
  · rw [if_pos hs]; exact ⟨h2, h3⟩
  · rw [if_neg hs]
    have hf := Bool.eq_false_iff.mpr hs
    exact ⟨invNamed_append bd d (Or.inr hf) h2,
      invAnon_append bd d (Or.inr hf) h3⟩

theorem insertGeneralDef_inv23 (mount : Str) (bd : List Defn) (d : Defn)
    (h2 : InvNamed bd) (h3 : InvAnon bd) :
    InvNamed (insertGeneralDef mount bd d) ∧
      InvAnon (insertGeneralDef mount bd d) := by
  rw [insertGeneralDef]
  by_cases ht : d.type = pathT
  · rw [if_pos ht]
    simp only []
    by_cases hd : hasPathDup bd (adjustPathDef mount d) = true
    · rw [if_pos hd]; exact ⟨h2, h3⟩
    · rw [if_neg hd]
      have htype : (adjustPathDef mount d).type = pathT := ht
      exact ⟨invNamed_append _ _ (Or.inl htype) h2,
        invAnon_append _ _ (Or.inl htype) h3⟩
  · rw [if_neg ht]
    by_cases hs : hasSameDef bd d = true
    · rw [if_pos hs]; exact ⟨h2, h3⟩
    · rw [if_neg hs]
      have hf := Bool.eq_false_iff.mpr hs
      exact ⟨invNamed_append bd d (Or.inr hf) h2,
        invAnon_append bd d (Or.inr hf) h3⟩

theorem foldl_root_inv23 (ds : List Defn) (bd : List Defn)
    (h2 : InvNamed bd) (h3 : InvAnon bd) :
    InvNamed (ds.foldl insertRootDef bd) ∧
      InvAnon (ds.foldl insertRootDef bd) := by
  induction ds generalizing bd with
  | nil => exact ⟨h2, h3⟩
  | cons d t ih =>
    rw [List.foldl_cons]
    obtain ⟨s2, s3⟩ := insertRootDef_inv23 bd d h2 h3
    exact ih (insertRootDef bd d) s2 s3

theorem foldl_general_inv23 (mount : Str) (ds : List Defn) (bd : List Defn)
    (h2 : InvNamed bd) (h3 : InvAnon bd) :
    InvNamed (ds.foldl (insertGeneralDef mount) bd) ∧
      InvAnon (ds.foldl (insertGeneralDef mount) bd) := by
  induction ds generalizing bd with
  | nil => exact ⟨h2, h3⟩
  | cons d t ih =>
    rw [List.foldl_cons]
    obtain ⟨s2, s3⟩ := insertGeneralDef_inv23 mount bd d h2 h3
    exact ih (insertGeneralDef mount bd d) s2 s3

theorem mergeEntry_inv23 (bd : List Defn) (e : MountEntry)
    (h2 : InvNamed bd) (h3 : InvAnon bd) :
    InvNamed (mergeEntry bd e) ∧ InvAnon (mergeEntry bd e) := by
  obtain ⟨epath, ereg⟩ := e
  rcases ereg with _ | ⟨edefs⟩
  · exact ⟨h2, h3⟩
  · rcases edefs with _ | ds
    · exact ⟨h2, h3⟩
    · simp only [mergeEntry]
      by_cases hr : epath = rootPath
      · rw [if_pos hr]
        exact foldl_root_inv23 ds bd h2 h3
      · rw [if_neg hr]
        exact foldl_general_inv23 epath ds bd h2 h3

theorem combine_inv23 (ledger : List MountEntry) (bd : List Defn)
    (h2 : InvNamed bd) (h3 : InvAnon bd) :
    InvNamed (combineRegistries bd ledger) ∧
      InvAnon (combineRegistries bd ledger) := by
  induction ledger generalizing bd with
  | nil => exact ⟨h2, h3⟩
  | cons e t ih =>
    have hc : combineRegistries bd (e :: t) =
        combineRegistries (mergeEntry bd e) t := rfl
    rw [hc]
    obtain ⟨s2, s3⟩ := mergeEntry_inv23 bd e h2 h3
    exact ih (mergeEntry bd e) s2 s3

/-- Claim C2 as stated is violated at a root mount: a base holding the path
definition (get, "/a") with metadata 0 merged with a root-mounted registry
holding (get, "/a") with metadata 1 passes the root duplicate test (the
schemas differ structurally), so the base ends with two path definitions
sharing the `(method, path)` pair — even though the base satisfied all
three invariants beforehand. -/
theorem c2_root_merge_breaks_pair_invariant :
    InvPath [⟨pathT, none, ⟨strL ("/a"), strL ("get"), 0⟩⟩] ∧
    ¬ InvPath (combineRegistries
      [⟨pathT, none, ⟨strL ("/a"), strL ("get"), 0⟩⟩]
      [⟨rootPath,
        some ⟨some [⟨pathT, none, ⟨strL ("/a"), strL ("get"), 1⟩⟩]⟩⟩]) := by
  constructor
  · intro m p
    exact le_trans (List.countP_le_length _) (by simp)
  · intro h
    have h2 := h (strL ("get")) (strL ("/a"))
    have hc : pairCount (combineRegistries
        [⟨pathT, none, ⟨strL ("/a"), strL ("get"), 0⟩⟩]
        [⟨rootPath,
          some ⟨some [⟨pathT, none, ⟨strL ("/a"), strL ("get"), 1⟩⟩]⟩⟩])
        (strL ("get")) (strL ("/a")) = 2 := by decide
    rw [hc] at h2
    exact absurd h2 (by decide)

/-- Claim C2 amended: after `combineRegistries` over a ledger whose entries all
have non-root mount paths, a base registry satisfying the three
de-duplication invariants still satisfies them: no two path definitions
share a `(method, path)` pair, no two named definitions of the same kind
share a name, and no two anonymous definitions of the same kind have
structurally equal schemas.  (The named and anonymous invariants are in
fact preserved at root mounts too; the path-pair invariant is what a root
mount can break, and the `generateOpenAPIDocument` merge breaks it at any
mount path.) -/
theorem c2_combine_invariants (base : List Defn) (ledger : List MountEntry)
    (hroot : ∀ e ∈ ledger, e.path ≠ rootPath)
    (h1 : InvPath base) (h2 : InvNamed base) (h3 : InvAnon base) :
    InvPath (combineRegistries base ledger) ∧
    InvNamed (combineRegistries base ledger) ∧
    InvAnon (combineRegistries base ledger) := by
  obtain ⟨i2, i3⟩ := combine_inv23 ledger base h2 h3
  refine ⟨?_, i2, i3⟩
  intro m p
  refine le_trans (combine_pairCount ledger base hroot m p).2 ?_
  exact max_le (le_refl 1) (h1 m p)

theorem c2_witness :
    InvPath (combineRegistries []
      [⟨strL ("/api"),
        some ⟨some [⟨pathT, none, ⟨strL ("/users"), strL ("get"), 1⟩⟩]⟩⟩]) ∧
    InvNamed (combineRegistries []
      [⟨strL ("/api"),
        some ⟨some [⟨pathT, none, ⟨strL ("/users"), strL ("get"), 1⟩⟩]⟩⟩]) ∧
    InvAnon (combineRegistries []
      [⟨strL ("/api"),
        some ⟨some [⟨pathT, none, ⟨strL ("/users"), strL ("get"), 1⟩⟩]⟩⟩]) :=
  c2_combine_invariants [] _ (by decide)
    (fun m p => by simp [pairCount, List.countP_nil])
    List.Pairwise.nil List.Pairwise.nil

theorem insertRootDef_grows (bd : List Defn) (d : Defn) :
    bd <+: insertRootDef bd d := by
  rw [insertRootDef]
  by_cases hs : hasSameDef bd d = true
  · rw [if_pos hs]
  · rw [if_neg hs]; exact List.prefix_append bd [d]

theorem insertGeneralDef_grows (mount : Str) (bd : List Defn) (d : Defn) :
    bd <+: insertGeneralDef mount bd d := by
  rw [insertGeneralDef]
  by_cases ht : d.type = pathT
  · rw [if_pos ht]
    simp only []
    by_cases hd : hasPathDup bd (adjustPathDef mount d) = true
    · rw [if_pos hd]
    · rw [if_neg hd]; exact List.prefix_append bd _
  · rw [if_neg ht]
    by_cases hs : hasSameDef bd d = true
    · rw [if_pos hs]
    · rw [if_neg hs]; exact List.prefix_append bd [d]

theorem foldl_root_grows (ds : List Defn) (bd : List Defn) :
    bd <+: ds.foldl insertRootDef bd := by
  induction ds generalizing bd with
  | nil => exact List.prefix_refl bd
  | cons d t ih =>
    rw [List.foldl_cons]
    exact List.IsPrefix.trans (insertRootDef_grows bd d)
      (ih (insertRootDef bd d))

theorem foldl_general_grows (mount : Str) (ds : List Defn)
    (bd : List Defn) : bd <+: ds.foldl (insertGeneralDef mount) bd := by
  induction ds generalizing bd with
  | nil => exact List.prefix_refl bd
  | cons d t ih =>
    rw [List.foldl_cons]
    exact List.IsPrefix.trans (insertGeneralDef_grows mount bd d)
      (ih (insertGeneralDef mount bd d))

theorem mergeEntry_grows (bd : List Defn) (e : MountEntry) :
    bd <+: mergeEntry bd e := by
  obtain ⟨epath, ereg⟩ := e
  rcases ereg with _ | ⟨edefs⟩
  · exact List.prefix_refl bd
  · rcases edefs with _ | ds
    · exact List.prefix_refl bd
    · simp only [mergeEntry]
      by_cases hr : epath = rootPath
      · rw [if_pos hr]; exact foldl_root_grows ds bd
      · rw [if_neg hr]; exact foldl_general_grows epath ds bd

theorem combine_grows (ledger : List MountEntry) (bd : List Defn) :
    bd <+: combineRegistries bd ledger := by
  induction ledger generalizing bd with
  | nil => exact List.prefix_refl bd
  | cons e t ih =>
    have hc : combineRegistries bd (e :: t) =
        combineRegistries (mergeEntry bd e) t := rfl
    rw [hc]
    exact List.IsPrefix.trans (mergeEntry_grows bd e) (ih (mergeEntry bd e))

theorem hasSameDef_mono (bd bd' : List Defn) (d : Defn) (hpre : bd <+: bd')
    (h : hasSameDef bd d = true) : hasSameDef bd' d = true := by
  rw [hasSameDef, List.any_eq_true] at h ⊢
  obtain ⟨b, hb, hm⟩ := h
  exact ⟨b, hpre.subset hb, hm⟩

theorem hasPathDup_mono (bd bd' : List Defn) (a : Defn) (hpre : bd <+: bd')
    (h : hasPathDup bd a = true) : hasPathDup bd' a = true := by
  rw [hasPathDup, List.any_eq_true] at h ⊢
  obtain ⟨b, hb, hm⟩ := h
  exact ⟨b, hpre.subset hb, hm⟩

theorem blockedDef_mono (mount : Str) (bd bd' : List Defn) (d : Defn)
    (hpre : bd <+: bd') (h : blockedDef mount bd d = true) :
    blockedDef mount bd' d = true := by
  rw [blockedDef] at h ⊢
  by_cases hr : mount = rootPath
  · rw [if_pos hr] at h ⊢
    exact hasSameDef_mono bd bd' d hpre h
  · rw [if_neg hr] at h ⊢
    by_cases ht : d.type = pathT
    · rw [if_pos ht] at h ⊢
      exact hasPathDup_mono bd bd' _ hpre h
    · rw [if_neg ht] at h ⊢
      exact hasSameDef_mono bd bd' d hpre h

theorem sameDefMatch_self (d : Defn) : sameDefMatch d d = true := by
  rw [sameDefMatch]
  by_cases ht : truthyName d.name = true
  · rw [if_pos ht]; simp
  · rw [if_neg ht]; simp

theorem pathDupMatch_self (a : Defn) (h : a.type = pathT) :
    pathDupMatch a a = true := by
  simp [pathDupMatch, h]

theorem insertRootDef_blocks (bd : List Defn) (d : Defn) :
    hasSameDef (insertRootDef bd d) d = true := by
  rw [insertRootDef]
  by_cases hs : hasSameDef bd d = true
  · rw [if_pos hs]; exact hs
  · rw [if_neg hs]
    rw [hasSameDef, List.any_eq_true]
    exact ⟨d, by simp, sameDefMatch_self d⟩

theorem insertGeneralDef_blocks (mount : Str) (bd : List Defn) (d : Defn)
    (hm : mount ≠ rootPath) :
    blockedDef mount (insertGeneralDef mount bd d) d = true := by
  rw [blockedDef, if_neg hm, insertGeneralDef]
  by_cases ht : d.type = pathT
  · rw [if_pos ht, if_pos ht]
    simp only []
    by_cases hd : hasPathDup bd (adjustPathDef mount d) = true
    · rw [if_pos hd]; exact hd
    · rw [if_neg hd]
      rw [hasPathDup, List.any_eq_true]
      exact ⟨adjustPathDef mount d, by simp, pathDupMatch_self _ ht⟩
  · rw [if_neg ht, if_neg ht]
    by_cases hs : hasSameDef bd d = true
    · rw [if_pos hs]; exact hs
    · rw [if_neg hs]
      rw [hasSameDef, List.any_eq_true]
      exact ⟨d, by simp, sameDefMatch_self d⟩

theorem foldl_root_blocked (ds : List Defn) (bd : List Defn) :
    ∀ d ∈ ds, hasSameDef (ds.foldl insertRootDef bd) d = true := by
  induction ds generalizing bd with
  | nil => intro d hd; simp at hd
  | cons d0 t ih =>
    intro d hd
    rw [List.foldl_cons]
    rcases List.mem_cons.mp hd with heq | hmem
    · subst heq
      exact hasSameDef_mono _ _ d (foldl_root_grows t _)
        (insertRootDef_blocks bd d)
    · exact ih (insertRootDef bd d0) d hmem

theorem foldl_general_blocked (mount : Str) (hm : mount ≠ rootPath)
    (ds : List Defn) (bd : List Defn) :
    ∀ d ∈ ds,
      blockedDef mount (ds.foldl (insertGeneralDef mount) bd) d = true := by
  induction ds generalizing bd with
  | nil => intro d hd; simp at hd
  | cons d0 t ih =>
    intro d hd
    rw [List.foldl_cons]
    rcases List.mem_cons.mp hd with heq | hmem
    · subst heq
      exact blockedDef_mono mount _ _ d (foldl_general_grows mount t _)
        (insertGeneralDef_blocks mount bd d hm)
    · exact ih (insertGeneralDef mount bd d0) d hmem

theorem insertGeneralDef_no_op (mount : Str) (bd : List Defn) (d : Defn)
    (hm : mount ≠ rootPath) (h : blockedDef mount bd d = true) :
    insertGeneralDef mount bd d = bd := by
  rw [blockedDef, if_neg hm] at h
  rw [insertGeneralDef]
  by_cases ht : d.type = pathT
  · rw [if_pos ht] at h
    rw [if_pos ht]
    simp only []
    rw [if_pos h]
  · rw [if_neg ht] at h
    rw [if_neg ht, if_pos h]

theorem foldl_root_no_op (ds : List Defn) (bd : List Defn)
    (h : ∀ d ∈ ds, hasSameDef bd d = true) :
    ds.foldl insertRootDef bd = bd := by
  induction ds with
  | nil => rfl
  | cons d0 t ih =>
    rw [List.foldl_cons, insertRootDef, if_pos (h d0 (by simp))]
    exact ih (fun d hd => h d (List.mem_cons_of_mem _ hd))

theorem foldl_general_no_op (mount : Str) (hm : mount ≠ rootPath)
    (ds : List Defn) (bd : List Defn)
    (h : ∀ d ∈ ds, blockedDef mount bd d = true) :
    ds.foldl (insertGeneralDef mount) bd = bd := by
  induction ds with
  | nil => rfl
  | cons d0 t ih =>
    rw [List.foldl_cons,
      insertGeneralDef_no_op mount bd d0 hm (h d0 (by simp))]
    exact ih (fun d hd => h d (List.mem_cons_of_mem _ hd))

theorem mergeEntry_done (bd : List Defn) (e : MountEntry) :
    entryDone (mergeEntry bd e) e := by
  obtain ⟨epath, ereg⟩ := e
  rcases ereg with _ | ⟨edefs⟩
  · intro d hd; simp [entryDefs] at hd
  · rcases edefs with _ | ds
    · intro d hd; simp [entryDefs] at hd
    · intro d hd
      simp only [entryDefs] at hd
      simp only [mergeEntry]
      by_cases hr : epath = rootPath
      · rw [if_pos hr]
        rw [blockedDef]
        rw [if_pos hr]
        exact foldl_root_blocked ds bd d hd
      · rw [if_neg hr]
        exact foldl_general_blocked epath hr ds bd d hd

theorem entryDone_mono (bd bd' : List Defn) (e : MountEntry)
    (hpre : bd <+: bd') (h : entryDone bd e) : entryDone bd' e := by
  intro d hd
  exact blockedDef_mono e.path bd bd' d hpre (h d hd)

theorem mergeEntry_no_op (bd : List Defn) (e : MountEntry)
    (h : entryDone bd e) : mergeEntry bd e = bd := by
  obtain ⟨epath, ereg⟩ := e
  rcases ereg with _ | ⟨edefs⟩
  · rfl
  · rcases edefs with _ | ds
    · rfl
    · simp only [mergeEntry]
      simp only [entryDone, entryDefs] at h
      by_cases hr : epath = rootPath
      · rw [if_pos hr]
        refine foldl_root_no_op ds bd (fun d hd => ?_)
        have hb := h d hd
        rw [blockedDef, if_pos hr] at hb
        exact hb
      · rw [if_neg hr]
        refine foldl_general_no_op epath hr ds bd (fun d hd => ?_)
        exact h d hd

theorem combine_all_done (ledger : List MountEntry) :
    ∀ bd : List Defn, ∀ e ∈ ledger,
      entryDone (combineRegistries bd ledger) e := by
  induction ledger with
  | nil => intro bd e he; simp at he
  | cons e0 t ih =>
    intro bd e he
    have hc : combineRegistries bd (e0 :: t) =
        combineRegistries (mergeEntry bd e0) t := rfl
    rw [hc]
    rcases List.mem_cons.mp he with heq | hmem
    · subst heq
      exact entryDone_mono _ _ e (combine_grows t (mergeEntry bd e))
        (mergeEntry_done bd e)
    · exact ih (mergeEntry bd e0) e hmem

theorem combine_no_op (ledger : List MountEntry) (bd : List Defn)
    (h : ∀ e ∈ ledger, entryDone bd e) :
    combineRegistries bd ledger = bd := by
  induction ledger with
  | nil => rfl
  | cons e0 t ih =>
    have hc : combineRegistries bd (e0 :: t) =
        combineRegistries (mergeEntry bd e0) t := rfl
    rw [hc, mergeEntry_no_op bd e0 (h e0 (by simp))]
    exact ih (fun e he => h e (List.mem_cons_of_mem _ he))

/-- Claim C3 as stated is violated on the `generateOpenAPIDocument` composition
path: processing the same mount entry twice appends its rewritten path
definition twice (the second processing adds one new definition, not
zero). -/
theorem c3_genmerge_not_idempotent :
    (genCombine []
      [⟨strL ("/api"),
         some ⟨some [⟨pathT, none, ⟨strL ("/users"), strL ("get"), 0⟩⟩]⟩⟩,
       ⟨strL ("/api"),
         some ⟨some [⟨pathT, none, ⟨strL ("/users"), strL ("get"), 0⟩⟩]⟩⟩]).length
      = 2 ∧
    (genCombine []
      [⟨strL ("/api"),
         some ⟨some [⟨pathT, none, ⟨strL ("/users"), strL ("get"), 0⟩⟩]⟩⟩]).length
      = 1 := by
  exact ⟨by decide, by decide⟩

/-- Claim C3 amended: `combineRegistries` is idempotent with respect to repeated
mounts.  A second occurrence of the same mount entry anywhere later in the
ledger contributes nothing (the base after the duplicate occurrence equals
the base without it), and running the whole composition a second time over
the same ledger leaves the base unchanged.  The `generateOpenAPIDocument`
path is not idempotent (see the counterexample). -/
theorem c3_combine_idempotent (base : List Defn)
    (l1 l2 l3 : List MountEntry) (e : MountEntry) (l : List MountEntry) :
    combineRegistries base (l1 ++ e :: (l2 ++ e :: l3)) =
      combineRegistries base (l1 ++ e :: (l2 ++ l3)) ∧
    combineRegistries (combineRegistries base l) l =
      combineRegistries base l := by
  constructor
  · rw [combineRegistries, combineRegistries, List.foldl_append,
      List.foldl_append, List.foldl_cons, List.foldl_cons,
      List.foldl_append, List.foldl_append, List.foldl_cons]
    have hdone : entryDone
        (List.foldl mergeEntry
          (mergeEntry (List.foldl mergeEntry base l1) e) l2) e := by
      have hd0 := mergeEntry_done (List.foldl mergeEntry base l1) e
      have hpre :=
        combine_grows l2 (mergeEntry (List.foldl mergeEntry base l1) e)
      exact entryDone_mono _ _ e hpre hd0
    rw [mergeEntry_no_op _ e hdone]
  · refine combine_no_op l (combineRegistries base l) ?_
    intro e0 he0
    exact combine_all_done l base e0 he0

/-- Claim C8 as stated is violated: in a call with three arguments whose third
argument is a value carrying both markers (the second being a plain
middleware with no markers), the wrapped `use` inspects only the second
argument, so no mount entry is recorded for the marked router even though
it is attached; the call is still forwarded unchanged. -/
theorem c8_third_position_not_recorded :
    argMarked (UseArg.val true (some ⟨some []⟩)) = some ⟨some []⟩ ∧
    usePlus [UseArg.str (strL ("/api")), UseArg.val false none,
        UseArg.val true (some ⟨some []⟩)] [] =
      ([], [UseArg.str (strL ("/api")), UseArg.val false none,
        UseArg.val true (some ⟨some []⟩)]) := by
  exact ⟨rfl, rfl⟩

/-- Claim C8 amended: the wrapped `use` records a mount entry exactly for a
marked value in the second argument position of a call with at least two
arguments (mount path taken from the first argument when it is a string,
"/" otherwise), or for a marked sole argument (mount path "/"); in both
cases the recorded path is normalized by `registerMount` and the arguments
are forwarded unchanged.  Marked values in any other position are not
recorded (see the counterexample). -/
theorem c8_use_records_second_arg (L : List MountEntry) (a0 a1 : UseArg)
    (rest : List UseArg) (r : RegistryShape) (a : UseArg) :
    (argMarked a1 = some r →
      usePlus (a0 :: a1 :: rest) L =
        (L ++ [⟨normalizeMountPath (pathArg a0), some r⟩],
          a0 :: a1 :: rest)) ∧
    (argMarked a = some r →
      usePlus [a] L = (L ++ [⟨rootPath, some r⟩], [a])) := by
  constructor
  · intro h
    simp [usePlus, h, registerMount]
  · intro h
    have hroot : normalizeMountPath rootPath = rootPath := by decide
    simp [usePlus, h, registerMount, hroot]

theorem c8_witness :
    argMarked (UseArg.val true (some ⟨some []⟩)) = some ⟨some []⟩ ∧
    usePlus [UseArg.str (strL ("api/")), UseArg.val true (some ⟨some []⟩)]
        [] =
      ([⟨normalizeMountPath (pathArg (UseArg.str (strL ("api/")))),
          some ⟨some []⟩⟩],
        [UseArg.str (strL ("api/")), UseArg.val true (some ⟨some []⟩)]) :=
  ⟨rfl,
    (c8_use_records_second_arg [] (UseArg.str (strL ("api/")))
      (UseArg.val true (some ⟨some []⟩)) [] ⟨some []⟩
      (UseArg.val true (some ⟨some []⟩))).1 rfl⟩

theorem foldlS_grows {α : Type} (f : StoreState → α → StoreState)
    (hf : ∀ st a, st.heap <+: (f st a).heap ∧ st.base <+: (f st a).base)
    (l : List α) (st : StoreState) :
    st.heap <+: (List.foldl f st l).heap ∧
      st.base <+: (List.foldl f st l).base := by
  induction l generalizing st with
  | nil => exact ⟨List.prefix_refl _, List.prefix_refl _⟩
  | cons a t ih =>
    rw [List.foldl_cons]
    obtain ⟨h1, h2⟩ := hf st a
    obtain ⟨i1, i2⟩ := ih (f st a)
    exact ⟨h1.trans i1, h2.trans i2⟩

theorem insertRootDefS_grows (st : StoreState) (a : Nat) :
    st.heap <+: (insertRootDefS st a).heap ∧
      st.base <+: (insertRootDefS st a).base := by
  rw [insertRootDefS]
  rcases h : readA st.heap a with _ | d
  · exact ⟨List.prefix_refl _, List.prefix_refl _⟩
  · simp only []
    by_cases hs : hasSameDefS st.heap st.base d = true
    · rw [if_pos hs]
      exact ⟨List.prefix_refl _, List.prefix_refl _⟩
    · rw [if_neg hs]
      exact ⟨List.prefix_refl _, List.prefix_append _ _⟩

theorem insertGeneralDefS_grows (mount : Str) (st : StoreState) (a : Nat) :
    st.heap <+: (insertGeneralDefS mount st a).heap ∧
      st.base <+: (insertGeneralDefS mount st a).base := by
  rw [insertGeneralDefS]
  rcases h : readA st.heap a with _ | d
  · exact ⟨List.prefix_refl _, List.prefix_refl _⟩
  · simp only []
    by_cases ht : d.type = pathT
    · rw [if_pos ht]
      by_cases hd : hasPathDupS (st.heap ++ [adjustPathDef mount d])
          st.base (adjustPathDef mount d) = true
      · rw [if_pos hd]
        exact ⟨List.prefix_append _ _, List.prefix_refl _⟩
      · rw [if_neg hd]
        exact ⟨List.prefix_append _ _, List.prefix_append _ _⟩
    · rw [if_neg ht]
      by_cases hs : hasSameDefS st.heap st.base d = true
      · rw [if_pos hs]
        exact ⟨List.prefix_refl _, List.prefix_refl _⟩
      · rw [if_neg hs]
        exact ⟨List.prefix_refl _, List.prefix_append _ _⟩

theorem genInsertDefS_grows (mount : Str) (st : StoreState) (a : Nat) :
    st.heap <+: (genInsertDefS mount st a).heap ∧
      st.base <+: (genInsertDefS mount st a).base := by
  rw [genInsertDefS]
  rcases h : readA st.heap a with _ | d
  · exact ⟨List.prefix_refl _, List.prefix_refl _⟩
  · simp only []
    by_cases ht : d.type = pathT
    · rw [if_pos ht]
      exact ⟨List.prefix_append _ _, List.prefix_append _ _⟩
    · rw [if_neg ht]
      by_cases hs : hasSameDefS st.heap st.base d = true
      · rw [if_pos hs]
        exact ⟨List.prefix_refl _, List.prefix_refl _⟩
      · rw [if_neg hs]
        exact ⟨List.prefix_refl _, List.prefix_append _ _⟩

theorem mergeEntryS_grows (st : StoreState) (e : MountEntryS) :
    st.heap <+: (mergeEntryS st e).heap ∧
      st.base <+: (mergeEntryS st e).base := by
  obtain ⟨epath, ereg⟩ := e
  rcases ereg with _ | ⟨_ | ds⟩
  · exact ⟨List.prefix_refl _, List.prefix_refl _⟩
  · exact ⟨List.prefix_refl _, List.prefix_refl _⟩
  · simp only [mergeEntryS]
    by_cases hr : epath = rootPath
    · rw [if_pos hr]
      exact foldlS_grows insertRootDefS insertRootDefS_grows ds st
    · rw [if_neg hr]
      exact foldlS_grows (insertGeneralDefS epath)
        (insertGeneralDefS_grows epath) ds st

theorem genMergeEntryS_grows (st : StoreState) (e : MountEntryS) :
    st.heap <+: (genMergeEntryS st e).heap ∧
      st.base <+: (genMergeEntryS st e).base := by
  obtain ⟨epath, ereg⟩ := e
  rcases ereg with _ | ⟨_ | ds⟩
  · exact ⟨List.prefix_refl _, List.prefix_refl _⟩
  · exact ⟨List.prefix_refl _, List.prefix_refl _⟩
  · simp only [genMergeEntryS]
    exact foldlS_grows (genInsertDefS epath)
      (genInsertDefS_grows epath) ds st

theorem combineRegistriesS_grows (st : StoreState)
    (ledger : List MountEntryS) :
    st.heap <+: (combineRegistriesS st ledger).heap ∧
      st.base <+: (combineRegistriesS st ledger).base :=
  foldlS_grows mergeEntryS mergeEntryS_grows ledger st

theorem genCombineS_grows (st : StoreState) (ledger : List MountEntryS) :
    st.heap <+: (genCombineS st ledger).heap ∧
      st.base <+: (genCombineS st ledger).base :=
  foldlS_grows genMergeEntryS genMergeEntryS_grows ledger st

theorem getElem_eq_of_grows {α : Type} (l1 l2 : List α) (h : l1 <+: l2)
    (a : Nat) (ha : a < l1.length) : l2[a]? = l1[a]? := by
  obtain ⟨t, rfl⟩ := h
  exact List.getElem?_append_left ha

/-- Claim C9: on both composition paths (the `combineRegistries` merge and the
`generateOpenAPIDocument` merge, run here over an explicit heap), every
definition cell that existed before composition is unchanged afterwards —
in particular every mounted registry's definitions, with their original
un-prefixed paths, are intact, because rewritten path definitions are
fresh copies allocated at new addresses — and the base registry's
definition list only grows, by appending at the end. -/
theorem c9_compose_preserves_sub_registries (st : StoreState)
    (ledger : List MountEntryS) (a : Nat) (ha : a < st.heap.length) :
    ((combineRegistriesS st ledger).heap[a]? = st.heap[a]? ∧
      ∃ ext, (combineRegistriesS st ledger).base = st.base ++ ext) ∧
    ((genCombineS st ledger).heap[a]? = st.heap[a]? ∧
      ∃ ext, (genCombineS st ledger).base = st.base ++ ext) := by
  obtain ⟨hh1, hb1⟩ := combineRegistriesS_grows st ledger
  obtain ⟨hh2, hb2⟩ := genCombineS_grows st ledger
  refine ⟨⟨getElem_eq_of_grows _ _ hh1 a ha, ?_⟩,
    ⟨getElem_eq_of_grows _ _ hh2 a ha, ?_⟩⟩
  · obtain ⟨t, htt⟩ := hb1
    exact ⟨t, htt.symm⟩
  · obtain ⟨t, htt⟩ := hb2
    exact ⟨t, htt.symm⟩

theorem c9_witness :
    ((combineRegistriesS
        ⟨[⟨pathT, none, ⟨strL ("/users"), strL ("get"), 0⟩⟩], []⟩
        [⟨strL ("/api"), some (some [0])⟩]).heap[0]? =
      (⟨[⟨pathT, none, ⟨strL ("/users"), strL ("get"), 0⟩⟩], []⟩ :
        StoreState).heap[0]? ∧
      ∃ ext, (combineRegistriesS
        ⟨[⟨pathT, none, ⟨strL ("/users"), strL ("get"), 0⟩⟩], []⟩
        [⟨strL ("/api"), some (some [0])⟩]).base = [] ++ ext) ∧
    ((genCombineS
        ⟨[⟨pathT, none, ⟨strL ("/users"), strL ("get"), 0⟩⟩], []⟩
        [⟨strL ("/api"), some (some [0])⟩]).heap[0]? =
      (⟨[⟨pathT, none, ⟨strL ("/users"), strL ("get"), 0⟩⟩], []⟩ :
        StoreState).heap[0]? ∧
      ∃ ext, (genCombineS
        ⟨[⟨pathT, none, ⟨strL ("/users"), strL ("get"), 0⟩⟩], []⟩
        [⟨strL ("/api"), some (some [0])⟩]).base = [] ++ ext) :=
  c9_compose_preserves_sub_registries
    ⟨[⟨pathT, none, ⟨strL ("/users"), strL ("get"), 0⟩⟩], []⟩
    [⟨strL ("/api"), some (some [0])⟩] 0 (by decide)
